import Mathlib

/-!
Shallow embedding of the TianJi-FCR risk-aggregation and snapshot-retention
core (TypeScript sources under src/), together with proofs about the claims
of its specification.

Modelling conventions:
* JavaScript numbers are modelled as exact rationals (`ℚ`); `Math.round`
  rounds half toward positive infinity.
* JavaScript strings (snapshot identifiers, dates) are modelled as `List Char`;
  `String.prototype.startsWith`, `split('-')`, `join('-')` and comparator
  sorting are modelled by the corresponding list functions below.
* The goal-projection formula uses `Math.log`; that one definition lives over
  `ℝ` with `Real.log`.
-/

namespace TianJi

/-- JavaScript `Math.round`: round half toward positive infinity. -/
def jsRound (x : ℚ) : ℚ := ((⌊x + 1/2⌋ : ℤ) : ℚ)

/-! ## Data model (src/types.ts), restricted to the fields the analysed code reads -/

/-- `StockPosition` of src/types.ts (id/name omitted: never read by the maths). -/
structure StockPosition where
  costPrice : ℚ
  price : ℚ
  shares : ℚ
  pledgeRate : ℚ
  isMargin : Bool
  loanAmount : ℚ

/-- `USStockPosition` of src/types.ts.  The aggregator reads
`p.loanAmount || 0`; an absent loan field is modelled as the value `0`. -/
structure USStockPosition where
  costPrice : ℚ
  price : ℚ
  shares : ℚ
  marketValue : ℚ
  pnl : ℚ
  loanAmount : ℚ

/-- Discriminant tag of `CryptoPosition`. -/
inductive CryptoType
  | SPOT
  | FUTURE
deriving DecidableEq

/-- `CryptoPosition` of src/types.ts (symbol/id and the derived
positionSize/pnlPercent fields omitted: never read by the analysed code). -/
structure CryptoPosition where
  type : CryptoType
  leverage : ℚ
  margin : ℚ
  liquidationPrice : Option ℚ
  units : ℚ
  entryPrice : ℚ
  currentPrice : ℚ
  pnl : ℚ

/-- `CryptoState` of src/types.ts. -/
structure CryptoState where
  walletBalance : ℚ
  positions : List CryptoPosition

/-- `DebtItem` of src/types.ts (only `outstandingAmount` is read). -/
structure DebtItem where
  outstandingAmount : ℚ

/-- `GlobalSettings` of src/types.ts (originalCapital fields omitted:
never read by the analysed code). -/
structure GlobalSettings where
  usdtTwdRate : ℚ
  usdTwdRate : ℚ
  cashTwd : ℚ
  cashUsd : ℚ

/-- `AnalysisResult` of src/types.ts, exactly the record built by the core
calculation effect. -/
structure AnalysisResult where
  netWorth : ℚ
  grossAssets : ℚ
  totalDebt : ℚ
  totalExposure : ℚ
  realLeverage : ℚ
  stockLeverage : ℚ
  usStockLeverage : ℚ
  cryptoLeverage : ℚ
  stockUtilization : ℚ
  usStockUtilization : ℚ
  cryptoUtilization : ℚ
  stockMaintenanceRate : Option ℚ
  totalStockPnL : ℚ
  totalStockPnLPercent : ℚ
  totalUSStockPnL : ℚ
  totalUSStockPnLPercent : ℚ
  totalCryptoPnL : ℚ
  totalCryptoPnLPercent : ℚ

/-! ## Risk aggregator (core calculation effect of src/unnamed/part_009, lines 855-977)

Each `reduce` accumulator of the source becomes a fold with initial value 0. -/

/-- `settings.usdTwdRate || 31.5` (JavaScript falsy fallback). -/
def usdRateOf (settings : GlobalSettings) : ℚ :=
  if settings.usdTwdRate = 0 then 31.5 else settings.usdTwdRate

/-- `stockPositions.reduce((acc, p) => acc + (p.price * p.shares), 0)`. -/
def stockMarketValue (ps : List StockPosition) : ℚ :=
  ps.foldl (fun acc p => acc + p.price * p.shares) 0

/-- `stockPositions.reduce((acc, p) => acc + (p.costPrice * p.shares), 0)`. -/
def stockCostValue (ps : List StockPosition) : ℚ :=
  ps.foldl (fun acc p => acc + p.costPrice * p.shares) 0

/-- `stockPositions.reduce((acc, p) => acc + p.loanAmount, 0)`. -/
def stockLoan (ps : List StockPosition) : ℚ :=
  ps.foldl (fun acc p => acc + p.loanAmount) 0

/-- `stockMarketValue - stockLoan`. -/
def stockNetEquity (ps : List StockPosition) : ℚ :=
  stockMarketValue ps - stockLoan ps

/-- `usStockPositions.reduce((acc, p) => acc + p.marketValue, 0)`. -/
def usStockMarketValue (ps : List USStockPosition) : ℚ :=
  ps.foldl (fun acc p => acc + p.marketValue) 0

/-- `usStockPositions.reduce((acc, p) => acc + (p.costPrice * p.shares), 0)`. -/
def usStockCostValue (ps : List USStockPosition) : ℚ :=
  ps.foldl (fun acc p => acc + p.costPrice * p.shares) 0

/-- `usStockPositions.reduce((acc, p) => acc + (p.loanAmount || 0), 0)`. -/
def usStockLoan (ps : List USStockPosition) : ℚ :=
  ps.foldl (fun acc p => acc + p.loanAmount) 0

/-- `usStockPositions.reduce((acc, p) => acc + p.pnl, 0)`. -/
def usStockPnL (ps : List USStockPosition) : ℚ :=
  ps.foldl (fun acc p => acc + p.pnl) 0

/-- `usStockMarketValue_USD - usStockLoan_USD`. -/
def usStockNetEquity (ps : List USStockPosition) : ℚ :=
  usStockMarketValue ps - usStockLoan ps

/-- The `cryptoCostBasis_USDT` accumulator of the crypto `forEach`:
spot contributes `units * entryPrice`, future contributes `margin`. -/
def cryptoCostBasis (ps : List CryptoPosition) : ℚ :=
  ps.foldl (fun acc p =>
    acc + match p.type with
      | .SPOT => p.units * p.entryPrice
      | .FUTURE => p.margin) 0

/-- The `cryptoTotalPositionSize_USDT` accumulator: spot contributes
`units * currentPrice`, future contributes `margin * leverage`. -/
def cryptoTotalPositionSize (ps : List CryptoPosition) : ℚ :=
  ps.foldl (fun acc p =>
    acc + match p.type with
      | .SPOT => p.units * p.currentPrice
      | .FUTURE => p.margin * p.leverage) 0

/-- The `cryptoTotalPnL_USDT` accumulator: every position contributes `p.pnl`. -/
def cryptoTotalPnL (ps : List CryptoPosition) : ℚ :=
  ps.foldl (fun acc p => acc + p.pnl) 0

/-- `walletBalance + cryptoCostBasis_USDT + cryptoTotalPnL_USDT`. -/
def cryptoNetEquity (c : CryptoState) : ℚ :=
  c.walletBalance + cryptoCostBasis c.positions + cryptoTotalPnL c.positions

/-- `debts.reduce((acc, d) => acc + d.outstandingAmount, 0)`. -/
def totalDebtAmount (debts : List DebtItem) : ℚ :=
  debts.foldl (fun acc d => acc + d.outstandingAmount) 0

/-- The core calculation effect of src/unnamed/part_009 (lines 855-977): from
settings, the three position stores and the debt list to the `AnalysisResult`
record passed to `setResults`. -/
def computeResults (settings : GlobalSettings) (stockPositions : List StockPosition)
    (usStockPositions : List USStockPosition) (cryptoData : CryptoState)
    (debts : List DebtItem) : AnalysisResult :=
  let usdRate := usdRateOf settings
  -- 1. Taiwan stock
  let sMV := stockMarketValue stockPositions
  let sCV := stockCostValue stockPositions
  let sLoan := stockLoan stockPositions
  let sNE := stockNetEquity stockPositions
  let stockLev := if 0 < sNE then sMV / sNE else if 0 < sMV then 999 else 1
  let stockUtil := if 0 < sMV + settings.cashTwd then sMV / (sMV + settings.cashTwd) else 0
  let maintenanceRate : Option ℚ := if 0 < sLoan then some (sMV / sLoan * 100) else none
  let stockPnL := sMV - sCV
  let stockPnLPercent := if 0 < sCV then stockPnL / sCV * 100 else 0
  -- 2. US stock
  let usMV := usStockMarketValue usStockPositions
  let usCV := usStockCostValue usStockPositions
  let usLoanV := usStockLoan usStockPositions
  let usPnL := usStockPnL usStockPositions
  let usPnLPercent := if 0 < usCV then usPnL / usCV * 100 else 0
  let usNE := usStockNetEquity usStockPositions
  let usStockEquityTwd := usNE * usdRate
  let usStockExposureTwd := usMV * usdRate
  let usStockLoanTwd := usLoanV * usdRate
  let usLev := if 0 < usNE then usMV / usNE else if 0 < usMV then 999 else 1
  let usUtil := if 0 < usMV + settings.cashUsd then usMV / (usMV + settings.cashUsd) else 0
  let cashUsdTwd := settings.cashUsd * usdRate
  -- 3. Crypto
  let cCost := cryptoCostBasis cryptoData.positions
  let cPnL := cryptoTotalPnL cryptoData.positions
  let cSize := cryptoTotalPositionSize cryptoData.positions
  let cNE := cryptoNetEquity cryptoData
  let cryptoNetEquityTwd := cNE * settings.usdtTwdRate
  let cryptoExposureTwd := cSize * settings.usdtTwdRate
  let cryptoLev := if 0 < cNE then cSize / cNE else if 0 < cSize then 999 else 0
  let cryptoUtil :=
    if 0 < cSize + cryptoData.walletBalance then cSize / (cSize + cryptoData.walletBalance) else 0
  let cryptoPnLTwd := cPnL * settings.usdtTwdRate
  let cryptoPnLPercent := if 0 < cCost then cPnL / cCost * 100 else 0
  -- 4. Debts
  let totalDebt := totalDebtAmount debts
  -- 5. Total portfolio
  let grossAssets := settings.cashTwd + cashUsdTwd + sNE + usStockEquityTwd + cryptoNetEquityTwd
  let totalNetWorth := grossAssets - totalDebt
  let totalExposure := sMV + usStockExposureTwd + cryptoExposureTwd
  let realLev := if 0 < totalNetWorth then totalExposure / totalNetWorth else 0
  { netWorth := totalNetWorth
    grossAssets := grossAssets
    totalDebt := totalDebt + sLoan + usStockLoanTwd
    totalExposure := totalExposure
    realLeverage := realLev
    stockLeverage := stockLev
    usStockLeverage := usLev
    cryptoLeverage := cryptoLev
    stockUtilization := stockUtil
    usStockUtilization := usUtil
    cryptoUtilization := cryptoUtil
    stockMaintenanceRate := maintenanceRate
    totalStockPnL := stockPnL
    totalStockPnLPercent := stockPnLPercent
    totalUSStockPnL := usPnL
    totalUSStockPnLPercent := usPnLPercent
    totalCryptoPnL := cryptoPnLTwd
    totalCryptoPnLPercent := cryptoPnLPercent }

/-! ## Local-equity margin helpers (src/unnamed/part_008) -/

/-- `calculateLoan` of src/unnamed/part_008 (lines 32-41). -/
def calculateLoan (cost price shares rate : ℚ) (isMargin : Bool) : ℚ :=
  if isMargin then jsRound (cost * shares * (0.6 : ℚ))
  else jsRound (price * shares * (rate / 100))

/-- Return record of `calculateMarginRisk`. -/
structure MarginRisk where
  maintenanceRate : ℚ
  distanceToKill : ℚ

/-- `calculateMarginRisk` of src/unnamed/part_008 (lines 44-60). -/
def calculateMarginRisk (stock : StockPosition) : Option MarginRisk :=
  if stock.isMargin = false ∨ stock.loanAmount ≤ 0 then none
  else
    let marketValue := stock.price * stock.shares
    let loanAmount := stock.loanAmount
    let maintenanceRate := marketValue / loanAmount * 100
    let killPrice := loanAmount * (1.30 : ℚ) / stock.shares
    let distanceToKill := (stock.price - killPrice) / stock.price * 100
    some { maintenanceRate := maintenanceRate, distanceToKill := distanceToKill }

/-- `isDanger` of src/unnamed/part_008 (line 379):
`risk.maintenanceRate < 140 || risk.distanceToKill < 10`. -/
def isDanger (risk : MarginRisk) : Bool :=
  decide (risk.maintenanceRate < 140) || decide (risk.distanceToKill < 10)

/-! ## Crypto liquidation distance (src/components/CryptoSection.tsx, lines 28-46) -/

/-- `calculateLiqDistance` of src/components/CryptoSection.tsx.  The JavaScript
truthiness test `pos.liquidationPrice && pos.liquidationPrice > 0` is false for
an absent field and for any non-positive value. -/
def calculateLiqDistance (pos : CryptoPosition) : Option ℚ :=
  if pos.type = CryptoType.SPOT then none
  else
    let current := pos.currentPrice
    if current ≤ 0 then none
    else
      let fallback :=
        let entry := pos.entryPrice
        let lev := pos.leverage
        if entry ≤ 0 ∨ lev ≤ 1 then none
        else
          let estLiqPrice := entry * (1 - 1 / lev)
          some ((current - estLiqPrice) / current * 100)
      match pos.liquidationPrice with
      | some lp => if 0 < lp then some ((current - lp) / current * 100) else fallback
      | none => fallback

/-! ## Goal progress (src/services/historyService.ts, lines 210-220) -/

/-- `Goal` of src/types.ts (only `targetAmount` is read by the maths). -/
structure Goal where
  targetAmount : ℚ

/-- Return record of `checkGoalProgress`. -/
structure GoalProgress where
  progress : ℚ
  remaining : ℚ
  isAchieved : Bool

/-- `checkGoalProgress` of src/services/historyService.ts. -/
def checkGoalProgress (goal : Goal) (currentNetWorth : ℚ) : GoalProgress :=
  let progress := currentNetWorth / goal.targetAmount * 100
  let remaining := goal.targetAmount - currentNetWorth
  let isAchieved := decide (goal.targetAmount ≤ currentNetWorth)
  { progress := min progress 100
    remaining := max remaining 0
    isAchieved := isAchieved }

/-! ## Goal projection (src/unnamed/part_006, lines 170-182)

`Math.log` forces this single definition over `ℝ`.  JavaScript `Infinity`
becomes the explicit constructor `infiniteDays`, `Math.ceil` becomes `⌈·⌉`. -/

/-- The `daysToGoal` field: a whole number of days or the infinite sentinel. -/
inductive DaysToGoal
  | days (n : ℤ)
  | infiniteDays
deriving DecidableEq

/-- Return record of one element of `goalProjections`. -/
structure GoalProjection where
  daysToGoal : DaysToGoal
  achieved : Bool
deriving DecidableEq

/-- One element of the `goalProjections` map of src/unnamed/part_006: the
projection for a goal with target `targetAmount`, given the current net worth
and the observed daily growth rate (in percent per day). -/
noncomputable def goalProjection (dailyGrowthRate currentNetWorth targetAmount : ℝ) :
    GoalProjection :=
  if targetAmount ≤ currentNetWorth then
    { daysToGoal := .days 0, achieved := true }
  else if dailyGrowthRate ≤ 0 then
    { daysToGoal := .infiniteDays, achieved := false }
  else
    { daysToGoal :=
        .days ⌈Real.log (targetAmount / currentNetWorth) /
               Real.log (1 + dailyGrowthRate / 100)⌉
      achieved := false }

/-! ## Snapshot identifiers as character lists (src/services/historyService.ts)

Snapshot identifiers are JavaScript strings of shape `YYYY-MM-DD` (bare date)
or `YYYY-MM-DD-HH:mm:ss`.  The string operations the service uses are
modelled over `List Char`. -/

/-- `String.prototype.startsWith`: `startsWithL p s` is true when `p` is an
initial segment of `s`. -/
def startsWithL : List Char → List Char → Bool
  | [], _ => true
  | _ :: _, [] => false
  | a :: ps, b :: ss => a == b && startsWithL ps ss

/-- `String.prototype.split(c)` for a single-character separator. -/
def splitOnChar (c : Char) : List Char → List (List Char)
  | [] => [[]]
  | a :: rest =>
    if a = c then [] :: splitOnChar c rest
    else
      match splitOnChar c rest with
      | [] => [[a]]
      | g :: gs => (a :: g) :: gs

/-- `Array.prototype.join('-')`. -/
def joinDash : List (List Char) → List Char
  | [] => []
  | [x] => x
  | x :: xs => x ++ '-' :: joinDash xs

/-- `s.id.split('-').slice(0, 3).join('-')`: the calendar-date part of a
snapshot identifier (cleanupOldSnapshots, line 82). -/
def dateOf (id : List Char) : List Char :=
  joinDash ((splitOnChar '-' id).take 3)

/-- Code-point comparison of strings, the order `localeCompare` induces on
ASCII identifiers: lexicographic on characters. -/
def lexLe : List Char → List Char → Bool
  | [], _ => true
  | _ :: _, [] => false
  | a :: xs, b :: ys => if a < b then true else if b < a then false else lexLe xs ys

/-- Snapshot record (src/types.ts `DailySnapshot`), restricted to the fields
the history service reads: the identifier and the net worth. -/
structure DailySnapshot where
  id : List Char
  netWorth : ℚ

/-- `history.snapshots.sort((a, b) => a.id.localeCompare(b.id))`. -/
def sortById (snaps : List DailySnapshot) : List DailySnapshot :=
  snaps.mergeSort (fun a b => lexLe a.id b.id)

/-- The `pastDates` set of `cleanupOldSnapshots` (lines 80-86): every distinct
date of the series other than today.  JavaScript `Set` iteration order is
immaterial to the proved invariants, so `dedup` stands in for it. -/
def pastDatesOf (snapshots : List DailySnapshot) (today : List Char) : List (List Char) :=
  ((snapshots.map fun s => dateOf s.id).filter fun d => decide (d ≠ today)).dedup

/-- The body of the `pastDates.forEach` loop of `cleanupOldSnapshots`
(lines 89-104): for one past date, delete all but the chronologically last
snapshot of that date and rewrite the kept identifier to the bare date. -/
def cleanupStep (snaps : List DailySnapshot) (date : List Char) : List DailySnapshot :=
  let daySnapshots := snaps.filter fun s => startsWithL date s.id
  if 1 < daySnapshots.length then
    match daySnapshots.getLast? with
    | some toKeep =>
      let snaps1 := daySnapshots.dropLast.foldl
        (fun acc s => acc.filter fun t => decide (t.id ≠ s.id)) snaps
      snaps1.map fun t => if t.id = toKeep.id then { t with id := date } else t
    | none => snaps
  else snaps

/-- `cleanupOldSnapshots` of src/services/historyService.ts (lines 78-105). -/
def cleanupOldSnapshots (snapshots : List DailySnapshot) (today : List Char) :
    List DailySnapshot :=
  (pastDatesOf snapshots today).foldl cleanupStep snapshots

/-- `saveSnapshot` of src/services/historyService.ts (lines 43-75).  The wall
clock enters through `today` (from `getTodayString`) and `timeStr` (the
`HH:mm:ss` render of the current time); the snapshot payload is reduced to its
net worth. -/
def saveSnapshot (history : List DailySnapshot) (today timeStr : List Char)
    (netWorth : ℚ) : List DailySnapshot :=
  let snaps := cleanupOldSnapshots history today
  let snapshotId := today ++ '-' :: timeStr
  let todaySnapshots := snaps.filter fun s => startsWithL today s.id
  let snaps2 :=
    if 5 ≤ todaySnapshots.length then
      match todaySnapshots.head? with
      | some oldestToday => snaps.filter fun s => decide (s.id ≠ oldestToday.id)
      | none => snaps
    else snaps
  sortById (snaps2 ++ [{ id := snapshotId, netWorth := netWorth }])

/-- `shouldTakeSnapshot` of src/services/historyService.ts (lines 110-127).
"A snapshot has already been recorded today" is represented, as in the code,
by `lastSnapshotDate = today`. -/
def shouldTakeSnapshot (hour : ℕ) (today lastSnapshotDate : List Char) : Bool :=
  if lastSnapshotDate = today then false
  else if 16 ≤ hour ∨ hour < 9 then true
  else false

/-! ## Well-formed identifiers

Identifiers written by the service are ISO dates (`YYYY-MM-DD`, ten characters,
dashes only as the two separators) optionally followed by `-HH:mm:ss`.  The
retention invariant is proved for histories whose identifiers have this shape —
every history the service itself writes does. -/

/-- A bare-date identifier: three dash-free components of widths 4, 2, 2. -/
def WfDate (d : List Char) : Prop :=
  ∃ a b c, d = a ++ '-' :: (b ++ '-' :: c) ∧
    a.length = 4 ∧ b.length = 2 ∧ c.length = 2 ∧ '-' ∉ a ∧ '-' ∉ b ∧ '-' ∉ c

/-- A `HH:mm:ss` time component: eight characters, no dash. -/
def WfTime (t : List Char) : Prop := t.length = 8 ∧ '-' ∉ t

/-- A well-formed snapshot identifier: a bare date or date-dash-time. -/
def WfId (s : List Char) : Prop :=
  (∃ d, WfDate d ∧ s = d) ∨ (∃ d t, WfDate d ∧ WfTime t ∧ s = d ++ '-' :: t)

/-- All identifiers of a series are well formed. -/
def WfSnaps (snaps : List DailySnapshot) : Prop := ∀ s ∈ snaps, WfId s.id

/-- Number of snapshots of the series carrying calendar date `d`. -/
def cntD (d : List Char) (snaps : List DailySnapshot) : ℕ :=
  (snaps.filter fun s => decide (dateOf s.id = d)).length

/-- The series is sorted ascending by identifier. -/
def SortedByIds (snaps : List DailySnapshot) : Prop :=
  snaps.Pairwise fun a b => lexLe a.id b.id = true

/-- The retention invariant relative to the current date `today`: identifiers
well formed, every other date has at most one snapshot (hence exactly one
where any snapshot of that date exists), today has at most five, and the
series is sorted ascending by identifier. -/
def Conformant (today : List Char) (snaps : List DailySnapshot) : Prop :=
  WfSnaps snaps ∧ (∀ d, d ≠ today → cntD d snaps ≤ 1) ∧
    cntD today snaps ≤ 5 ∧ SortedByIds snaps

/-- One capture: the wall-clock date and time at which `saveSnapshot` runs,
and the net worth recorded. -/
structure Capture where
  today : List Char
  timeStr : List Char
  netWorth : ℚ

/-- A sequence of captures applied in order. -/
def runCaptures (init : List DailySnapshot) (captures : List Capture) :
    List DailySnapshot :=
  captures.foldl (fun h c => saveSnapshot h c.today c.timeStr c.netWorth) init

/-- The date of the last capture of a sequence. -/
def lastTodayOf (captures : List Capture) : List Char :=
  ((captures.getLast?).map fun c => c.today).getD []

/-! ## Wave analysis (src/services/historyService.ts, lines 141-176) -/

/-- `Math.max(...xs)` over a non-empty list (the service guards emptiness). -/
def jsMaxList : List ℚ → ℚ
  | [] => 0
  | x :: xs => xs.foldl max x

/-- `Math.min(...xs)` over a non-empty list. -/
def jsMinList : List ℚ → ℚ
  | [] => 0
  | x :: xs => xs.foldl min x

/-- Return record of `getWaveAnalysis`. -/
structure WaveAnalysis where
  allTimeHigh : ℚ
  allTimeLow : ℚ
  highDate : List Char
  lowDate : List Char
  current : ℚ
  currentPosition : ℚ
  distanceFromHigh : ℚ
  distanceFromLow : ℚ
  totalSnapshots : ℕ

/-- `getWaveAnalysis` of src/services/historyService.ts.  The JavaScript
`snapshots[snapshots.length - 1]?.netWorth || 0` collapses an absent last
element to `0`; a present net worth of `0` is also falsy but `|| 0` then
yields the same value. -/
def getWaveAnalysis (snapshots : List DailySnapshot) : Option WaveAnalysis :=
  if snapshots.length = 0 then none
  else
    let netWorths := snapshots.map fun s => s.netWorth
    let allTimeHigh := jsMaxList netWorths
    let allTimeLow := jsMinList netWorths
    let current := ((snapshots.getLast?).map fun s => s.netWorth).getD 0
    let highSnapshot := snapshots.find? fun s => s.netWorth == allTimeHigh
    let lowSnapshot := snapshots.find? fun s => s.netWorth == allTimeLow
    let range := allTimeHigh - allTimeLow
    let currentPosition := if 0 < range then (current - allTimeLow) / range * 100 else 50
    let distanceFromHigh :=
      if 0 < allTimeHigh then (allTimeHigh - current) / allTimeHigh * 100 else 0
    let distanceFromLow :=
      if 0 < allTimeLow then (current - allTimeLow) / allTimeLow * 100 else 0
    some { allTimeHigh := allTimeHigh
           allTimeLow := allTimeLow
           highDate := (highSnapshot.map fun s => s.id).getD []
           lowDate := (lowSnapshot.map fun s => s.id).getD []
           current := current
           currentPosition := currentPosition
           distanceFromHigh := distanceFromHigh
           distanceFromLow := distanceFromLow
           totalSnapshots := snapshots.length }

/-! ## Projection lemmas for the aggregator -/

/-- The stock-leverage field of the aggregator, in closed form. -/
theorem computeResults_stockLeverage (settings : GlobalSettings)
    (sp : List StockPosition) (usp : List USStockPosition) (cd : CryptoState)
    (debts : List DebtItem) :
    (computeResults settings sp usp cd debts).stockLeverage
      = if 0 < stockNetEquity sp then stockMarketValue sp / stockNetEquity sp
        else if 0 < stockMarketValue sp then 999 else 1 := rfl

/-- The US-stock-leverage field of the aggregator, in closed form. -/
theorem computeResults_usStockLeverage (settings : GlobalSettings)
    (sp : List StockPosition) (usp : List USStockPosition) (cd : CryptoState)
    (debts : List DebtItem) :
    (computeResults settings sp usp cd debts).usStockLeverage
      = if 0 < usStockNetEquity usp then usStockMarketValue usp / usStockNetEquity usp
        else if 0 < usStockMarketValue usp then 999 else 1 := rfl

/-- The crypto-leverage field of the aggregator, in closed form. -/
theorem computeResults_cryptoLeverage (settings : GlobalSettings)
    (sp : List StockPosition) (usp : List USStockPosition) (cd : CryptoState)
    (debts : List DebtItem) :
    (computeResults settings sp usp cd debts).cryptoLeverage
      = if 0 < cryptoNetEquity cd
        then cryptoTotalPositionSize cd.positions / cryptoNetEquity cd
        else if 0 < cryptoTotalPositionSize cd.positions then 999 else 0 := rfl

/-- The blended-leverage field of the aggregator, in terms of the record's own
net worth and exposure fields. -/
theorem computeResults_realLeverage (settings : GlobalSettings)
    (sp : List StockPosition) (usp : List USStockPosition) (cd : CryptoState)
    (debts : List DebtItem) :
    (computeResults settings sp usp cd debts).realLeverage
      = if 0 < (computeResults settings sp usp cd debts).netWorth
        then (computeResults settings sp usp cd debts).totalExposure /
             (computeResults settings sp usp cd debts).netWorth
        else 0 := rfl

/-- The maintenance-rate field of the aggregator, in closed form. -/
theorem computeResults_stockMaintenanceRate (settings : GlobalSettings)
    (sp : List StockPosition) (usp : List USStockPosition) (cd : CryptoState)
    (debts : List DebtItem) :
    (computeResults settings sp usp cd debts).stockMaintenanceRate
      = if 0 < stockLoan sp then some (stockMarketValue sp / stockLoan sp * 100)
        else none := rfl

/-! ## C1 — per-class and blended leverage sentinels -/

/-- C1 counterexample.  At a state with one fully financed local-equity
position (market value 100, loan 100) and a debt of 50, the net worth is
-50 ≤ 0 and the total exposure is 100 > 0, yet `realLeverage` is `0`, not the
saturated sentinel `999` the claim demands; and at the same state the crypto
book is empty (net equity 0, exposure 0), yet `cryptoLeverage` is `0`, not `1`
as the claim demands. -/
theorem realLeverage_no_sentinel :
    (computeResults ⟨0, 0, 0, 0⟩ [⟨100, 100, 1, 0, false, 100⟩] [] ⟨0, []⟩
        [⟨50⟩]).netWorth = -50 ∧
    (computeResults ⟨0, 0, 0, 0⟩ [⟨100, 100, 1, 0, false, 100⟩] [] ⟨0, []⟩
        [⟨50⟩]).totalExposure = 100 ∧
    (computeResults ⟨0, 0, 0, 0⟩ [⟨100, 100, 1, 0, false, 100⟩] [] ⟨0, []⟩
        [⟨50⟩]).realLeverage = 0 ∧
    cryptoNetEquity ⟨0, []⟩ = 0 ∧
    cryptoTotalPositionSize ([] : List CryptoPosition) = 0 ∧
    (computeResults ⟨0, 0, 0, 0⟩ [⟨100, 100, 1, 0, false, 100⟩] [] ⟨0, []⟩
        [⟨50⟩]).cryptoLeverage = 0 := by
  norm_num [computeResults, usdRateOf, stockMarketValue, stockCostValue, stockLoan,
    stockNetEquity, usStockMarketValue, usStockCostValue, usStockLoan, usStockPnL,
    usStockNetEquity, cryptoCostBasis, cryptoTotalPositionSize, cryptoTotalPnL,
    cryptoNetEquity, totalDebtAmount]

/-- C1 (amended).  Local-equity and foreign-equity leverage follow the claimed
policy (ratio when net equity > 0, sentinel 999 when net equity ≤ 0 with
positive exposure, 1 when exposure is also non-positive).  Crypto leverage
uses the 999 sentinel but reports 0 — not 1 — when net equity ≤ 0 and exposure
is non-positive.  The blended figure has no sentinel at all: it is
exposure / net worth when net worth > 0 and 0 otherwise. -/
theorem leverage_sentinels (settings : GlobalSettings) (sp : List StockPosition)
    (usp : List USStockPosition) (cd : CryptoState) (debts : List DebtItem)
    (r : AnalysisResult) (hr : r = computeResults settings sp usp cd debts) :
    ((0 < stockNetEquity sp →
        r.stockLeverage = stockMarketValue sp / stockNetEquity sp) ∧
     (stockNetEquity sp ≤ 0 → 0 < stockMarketValue sp → r.stockLeverage = 999) ∧
     (stockNetEquity sp ≤ 0 → stockMarketValue sp ≤ 0 → r.stockLeverage = 1)) ∧
    ((0 < usStockNetEquity usp →
        r.usStockLeverage = usStockMarketValue usp / usStockNetEquity usp) ∧
     (usStockNetEquity usp ≤ 0 → 0 < usStockMarketValue usp →
        r.usStockLeverage = 999) ∧
     (usStockNetEquity usp ≤ 0 → usStockMarketValue usp ≤ 0 →
        r.usStockLeverage = 1)) ∧
    ((0 < cryptoNetEquity cd →
        r.cryptoLeverage = cryptoTotalPositionSize cd.positions / cryptoNetEquity cd) ∧
     (cryptoNetEquity cd ≤ 0 → 0 < cryptoTotalPositionSize cd.positions →
        r.cryptoLeverage = 999) ∧
     (cryptoNetEquity cd ≤ 0 → cryptoTotalPositionSize cd.positions ≤ 0 →
        r.cryptoLeverage = 0)) ∧
    ((0 < r.netWorth → r.realLeverage = r.totalExposure / r.netWorth) ∧
     (r.netWorth ≤ 0 → r.realLeverage = 0)) := by
  subst hr
  refine ⟨⟨?_, ?_, ?_⟩, ⟨?_, ?_, ?_⟩, ⟨?_, ?_, ?_⟩, ⟨?_, ?_⟩⟩
  · intro h; rw [computeResults_stockLeverage, if_pos h]
  · intro h h2
    rw [computeResults_stockLeverage, if_neg (not_lt.mpr h), if_pos h2]
  · intro h h2
    rw [computeResults_stockLeverage, if_neg (not_lt.mpr h), if_neg (not_lt.mpr h2)]
  · intro h; rw [computeResults_usStockLeverage, if_pos h]
  · intro h h2
    rw [computeResults_usStockLeverage, if_neg (not_lt.mpr h), if_pos h2]
  · intro h h2
    rw [computeResults_usStockLeverage, if_neg (not_lt.mpr h), if_neg (not_lt.mpr h2)]
  · intro h; rw [computeResults_cryptoLeverage, if_pos h]
  · intro h h2
    rw [computeResults_cryptoLeverage, if_neg (not_lt.mpr h), if_pos h2]
  · intro h h2
    rw [computeResults_cryptoLeverage, if_neg (not_lt.mpr h), if_neg (not_lt.mpr h2)]
  · intro h; rw [computeResults_realLeverage, if_pos h]
  · intro h; rw [computeResults_realLeverage, if_neg (not_lt.mpr h)]

/-- C1 witness: the amended statement applied at a concrete levered state
(market value 600000, net equity 300000 — leverage 2). -/
theorem leverage_sentinels_witness :
    (computeResults ⟨0, 0, 0, 0⟩ [⟨500, 600, 1000, 0, true, 300000⟩] [] ⟨0, []⟩
        []).stockLeverage
      = stockMarketValue [⟨500, 600, 1000, 0, true, 300000⟩] /
        stockNetEquity [⟨500, 600, 1000, 0, true, 300000⟩] :=
  (leverage_sentinels ⟨0, 0, 0, 0⟩ [⟨500, 600, 1000, 0, true, 300000⟩] [] ⟨0, []⟩
    [] _ rfl).1.1
    (by norm_num [stockNetEquity, stockMarketValue, stockLoan])

/-! ## C8 — maintenance rate nullability -/

/-- C8.  Given a non-negative summed loan, the aggregator's maintenance rate
is `none` exactly when the summed loan is zero, and otherwise equals
market value / loan × 100. -/
theorem stockMaintenanceRate_null_iff (settings : GlobalSettings)
    (sp : List StockPosition) (usp : List USStockPosition) (cd : CryptoState)
    (debts : List DebtItem) (r : AnalysisResult)
    (hr : r = computeResults settings sp usp cd debts)
    (hl : 0 ≤ stockLoan sp) :
    (r.stockMaintenanceRate = none ↔ stockLoan sp = 0) ∧
    (stockLoan sp ≠ 0 →
      r.stockMaintenanceRate = some (stockMarketValue sp / stockLoan sp * 100)) := by
  subst hr
  simp only [computeResults_stockMaintenanceRate]
  constructor
  · split_ifs with h
    · simp [h.ne']
    · simp [le_antisymm (not_lt.mp h) hl]
  · intro hne
    rw [if_pos (lt_of_le_of_ne hl (Ne.symm hne))]

/-- C8 witness: at the empty position list the summed loan is 0 and the
maintenance rate is `none`. -/
theorem stockMaintenanceRate_null_iff_witness :
    ((computeResults ⟨1, 1, 0, 0⟩ [] [] ⟨0, []⟩ []).stockMaintenanceRate = none ↔
      stockLoan [] = 0) ∧
    (stockLoan [] ≠ 0 →
      (computeResults ⟨1, 1, 0, 0⟩ [] [] ⟨0, []⟩ []).stockMaintenanceRate
        = some (stockMarketValue [] / stockLoan [] * 100)) :=
  stockMaintenanceRate_null_iff ⟨1, 1, 0, 0⟩ [] [] ⟨0, []⟩ [] _ rfl
    (by norm_num [stockLoan])

/-! ## C6 — loan amount on create/edit -/

/-- C6 counterexample.  `calculateLoan` rounds: at cost 1, shares 1, margin
set, the code stores 1, not the exact product 0.6 the claim states. -/
theorem calculateLoan_rounds :
    calculateLoan 1 1 1 0 true = 1 ∧ (1 : ℚ) ≠ 1 * 1 * (0.6 : ℚ) := by
  constructor
  · norm_num [calculateLoan, jsRound]
  · norm_num

/-- C6 (amended).  The loan amount is `Math.round` of costPrice × shares × 0.6
when the margin flag is set and `Math.round` of price × shares × pledgeRate/100
when it is not; for the claimed example (cost 500, price 600, shares 1000,
margin) the rounding is exact: loan 300000, market value 600000, net equity
300000, leverage 2, maintenance rate 200%. -/
theorem calculateLoan_spec (cost price shares rate : ℚ) :
    calculateLoan cost price shares rate true = jsRound (cost * shares * (0.6 : ℚ)) ∧
    calculateLoan cost price shares rate false = jsRound (price * shares * (rate / 100)) ∧
    calculateLoan 500 600 1000 0 true = 300000 ∧
    stockMarketValue [⟨500, 600, 1000, 0, true, calculateLoan 500 600 1000 0 true⟩]
      = 600000 ∧
    stockNetEquity [⟨500, 600, 1000, 0, true, calculateLoan 500 600 1000 0 true⟩]
      = 300000 ∧
    (computeResults ⟨0, 0, 0, 0⟩
        [⟨500, 600, 1000, 0, true, calculateLoan 500 600 1000 0 true⟩] [] ⟨0, []⟩
        []).stockLeverage = 2 ∧
    (computeResults ⟨0, 0, 0, 0⟩
        [⟨500, 600, 1000, 0, true, calculateLoan 500 600 1000 0 true⟩] [] ⟨0, []⟩
        []).stockMaintenanceRate = some 200 := by
  have hloan : calculateLoan 500 600 1000 0 true = 300000 := by
    norm_num [calculateLoan, jsRound]
  refine ⟨rfl, rfl, hloan, ?_, ?_, ?_, ?_⟩ <;>
    norm_num [hloan, computeResults, usdRateOf, stockMarketValue, stockCostValue,
      stockLoan, stockNetEquity, usStockMarketValue, usStockCostValue, usStockLoan,
      usStockPnL, usStockNetEquity, cryptoCostBasis, cryptoTotalPositionSize,
      cryptoTotalPnL, cryptoNetEquity, totalDebtAmount]

/-! ## C4 — monotonicity of margin risk in price -/

/-- C4.  For a fixed margin position (shares > 0, loan > 0) and prices
0 < p < q, both risk figures strictly increase with the price, and the danger
flag never turns on when the price rises. -/
theorem calculateMarginRisk_monotone (cost shares rate loan p q : ℚ)
    (hp : 0 < p) (hpq : p < q) (hs : 0 < shares) (hl : 0 < loan) :
    ∃ r₁ r₂,
      calculateMarginRisk ⟨cost, p, shares, rate, true, loan⟩ = some r₁ ∧
      calculateMarginRisk ⟨cost, q, shares, rate, true, loan⟩ = some r₂ ∧
      r₁.maintenanceRate < r₂.maintenanceRate ∧
      r₁.distanceToKill < r₂.distanceToKill ∧
      (isDanger r₂ = true → isDanger r₁ = true) := by
  have hq : 0 < q := hp.trans hpq
  have hcond : ¬((true : Bool) = false ∨ loan ≤ 0) := by
    simp [not_le.mpr hl]
  unfold calculateMarginRisk
  dsimp only
  rw [if_neg hcond, if_neg hcond]
  refine ⟨_, _, rfl, rfl, ?_, ?_, ?_⟩
  · have h1 : p * shares < q * shares := mul_lt_mul_of_pos_right hpq hs
    have h2 : p * shares / loan < q * shares / loan := (div_lt_div_iff_of_pos_right hl).mpr h1
    exact mul_lt_mul_of_pos_right h2 (by norm_num)
  · have hKpos : 0 < loan * (1.30 : ℚ) / shares := by positivity
    have h2 : (p - loan * (1.30 : ℚ) / shares) / p
        < (q - loan * (1.30 : ℚ) / shares) / q := by
      rw [div_lt_div_iff₀ hp hq]
      nlinarith [mul_lt_mul_of_pos_left hpq hKpos]
    exact mul_lt_mul_of_pos_right h2 (by norm_num)
  · have h1 : p * shares / loan * 100 < q * shares / loan * 100 := by
      have h1 : p * shares < q * shares := mul_lt_mul_of_pos_right hpq hs
      exact mul_lt_mul_of_pos_right ((div_lt_div_iff_of_pos_right hl).mpr h1) (by norm_num)
    have hKpos : 0 < loan * (1.30 : ℚ) / shares := by positivity
    have h2 : (p - loan * (1.30 : ℚ) / shares) / p * 100
        < (q - loan * (1.30 : ℚ) / shares) / q * 100 := by
      have : (p - loan * (1.30 : ℚ) / shares) / p
          < (q - loan * (1.30 : ℚ) / shares) / q := by
        rw [div_lt_div_iff₀ hp hq]
        nlinarith [mul_lt_mul_of_pos_left hpq hKpos]
      exact mul_lt_mul_of_pos_right this (by norm_num)
    simp only [isDanger, Bool.or_eq_true, decide_eq_true_eq]
    rintro (h | h)
    · exact Or.inl (h1.trans h)
    · exact Or.inr (h2.trans h)

/-- C4 witness: the monotonicity statement at cost 0, shares 1, rate 0,
loan 1, prices 1 < 2. -/
theorem calculateMarginRisk_monotone_witness :
    ∃ r₁ r₂,
      calculateMarginRisk ⟨0, 1, 1, 0, true, 1⟩ = some r₁ ∧
      calculateMarginRisk ⟨0, 2, 1, 0, true, 1⟩ = some r₂ ∧
      r₁.maintenanceRate < r₂.maintenanceRate ∧
      r₁.distanceToKill < r₂.distanceToKill ∧
      (isDanger r₂ = true → isDanger r₁ = true) :=
  calculateMarginRisk_monotone 0 1 0 1 1 2 (by norm_num) (by norm_num)
    (by norm_num) (by norm_num)

/-! ## C5 — snapshot trigger policy -/

/-- C5.  `shouldTakeSnapshot` is true exactly when no snapshot has been
recorded for the current date (`lastSnapshotDate ≠ today`) and the hour lies
in the after-market/pre-market window (≥ 16 or < 9). -/
theorem shouldTakeSnapshot_iff (hour : ℕ) (today lastSnapshotDate : List Char) :
    shouldTakeSnapshot hour today lastSnapshotDate = true ↔
      lastSnapshotDate ≠ today ∧ (16 ≤ hour ∨ hour < 9) := by
  unfold shouldTakeSnapshot
  split_ifs with h1 h2 <;> simp_all

/-! ## C7 — goal progress -/

/-- C7 counterexample.  For target 100 > 0 and current net worth -100, the
returned progress is -100, outside the claimed interval [0, 100]: the code
clamps only from above. -/
theorem checkGoalProgress_negative :
    (0 : ℚ) < 100 ∧ (checkGoalProgress ⟨100⟩ (-100)).progress = -100 ∧
      ¬(0 ≤ (checkGoalProgress ⟨100⟩ (-100)).progress) := by
  norm_num [checkGoalProgress, min_def]

/-- C7 (amended).  For target > 0: progress is min(current/target × 100, 100),
remaining is max(target − current, 0), achieved ⇔ current ≥ target ⇔
progress = 100; progress is bounded above by 100, and lies in [0, 100]
whenever the current net worth is non-negative (a negative net worth yields a
negative progress figure). -/
theorem checkGoalProgress_spec (goal : Goal) (currentNetWorth : ℚ)
    (ht : 0 < goal.targetAmount) :
    (checkGoalProgress goal currentNetWorth).progress
        = min (currentNetWorth / goal.targetAmount * 100) 100 ∧
    (checkGoalProgress goal currentNetWorth).remaining
        = max (goal.targetAmount - currentNetWorth) 0 ∧
    ((checkGoalProgress goal currentNetWorth).isAchieved = true ↔
        goal.targetAmount ≤ currentNetWorth) ∧
    (checkGoalProgress goal currentNetWorth).progress ≤ 100 ∧
    (0 ≤ currentNetWorth → 0 ≤ (checkGoalProgress goal currentNetWorth).progress) ∧
    ((checkGoalProgress goal currentNetWorth).isAchieved = true ↔
        (checkGoalProgress goal currentNetWorth).progress = 100) := by
  unfold checkGoalProgress
  dsimp only
  refine ⟨rfl, rfl, by simp, min_le_right _ _, ?_, ?_⟩
  · intro hc
    exact le_min (by positivity) (by norm_num)
  · simp only [decide_eq_true_eq]
    constructor
    · intro h
      have h1 : (100 : ℚ) ≤ currentNetWorth / goal.targetAmount * 100 := by
        have := (one_le_div ht).mpr h
        nlinarith
      exact min_eq_right h1
    · intro h
      have h1 : (100 : ℚ) ≤ currentNetWorth / goal.targetAmount * 100 :=
        min_eq_right_iff.mp h
      have h2 : (1 : ℚ) ≤ currentNetWorth / goal.targetAmount := by linarith
      exact (one_le_div ht).mp h2

/-- C7 witness: the amended statement at target 100, current 50. -/
theorem checkGoalProgress_spec_witness :
    (checkGoalProgress ⟨100⟩ 50).progress = min ((50 : ℚ) / 100 * 100) 100 ∧
    (checkGoalProgress ⟨100⟩ 50).remaining = max ((100 : ℚ) - 50) 0 ∧
    ((checkGoalProgress ⟨100⟩ 50).isAchieved = true ↔ (100 : ℚ) ≤ 50) ∧
    (checkGoalProgress ⟨100⟩ 50).progress ≤ 100 ∧
    (0 ≤ (50 : ℚ) → 0 ≤ (checkGoalProgress ⟨100⟩ 50).progress) ∧
    ((checkGoalProgress ⟨100⟩ 50).isAchieved = true ↔
        (checkGoalProgress ⟨100⟩ 50).progress = 100) :=
  checkGoalProgress_spec ⟨100⟩ 50 (by norm_num)

/-! ## C3 — goal projection -/

/-- C3.  For an already-achieved goal the projection reports 0 days and the
achieved flag; for current < target it reports the infinite-days sentinel when
the daily growth rate is ≤ 0 and otherwise the ceiling of
ln(target/current) / ln(1 + rate/100). -/
theorem goalProjection_spec (rate c t : ℝ) :
    (t ≤ c → goalProjection rate c t = { daysToGoal := .days 0, achieved := true }) ∧
    (c < t → rate ≤ 0 →
      goalProjection rate c t = { daysToGoal := .infiniteDays, achieved := false }) ∧
    (c < t → 0 < rate →
      goalProjection rate c t =
        { daysToGoal := .days ⌈Real.log (t / c) / Real.log (1 + rate / 100)⌉
          achieved := false }) := by
  unfold goalProjection
  refine ⟨?_, ?_, ?_⟩
  · intro h; rw [if_pos h]
  · intro h1 h2; rw [if_neg (not_le.mpr h1), if_pos h2]
  · intro h1 h2; rw [if_neg (not_le.mpr h1), if_neg (not_le.mpr h2)]

/-- C3 witness: a negative growth rate with current 5 below target 10 yields
the infinite-days sentinel and a cleared achieved flag. -/
theorem goalProjection_spec_witness :
    goalProjection (-1) 5 10 = { daysToGoal := .infiniteDays, achieved := false } :=
  (goalProjection_spec (-1) 5 10).2.1 (by norm_num) (by norm_num)

/-! ## C10 — crypto liquidation distance -/

/-- C10.  `calculateLiqDistance` returns `none` exactly for spot positions,
non-positive current prices, and futures lacking a positive explicit
liquidation price whose estimate is undefined (entry ≤ 0 or leverage ≤ 1);
in every other case it returns a value, and no division by zero occurs. -/
theorem calculateLiqDistance_none_iff (pos : CryptoPosition) :
    calculateLiqDistance pos = none ↔
      (pos.type = CryptoType.SPOT ∨ pos.currentPrice ≤ 0 ∨
        ((∀ lp, pos.liquidationPrice = some lp → lp ≤ 0) ∧
          (pos.entryPrice ≤ 0 ∨ pos.leverage ≤ 1))) := by
  obtain ⟨ty, lev, mar, lp, un, ep, cp, pn⟩ := pos
  unfold calculateLiqDistance
  dsimp only
  cases ty
  · simp
  · rw [if_neg (by simp)]
    cases lp with
    | none =>
      dsimp only
      split_ifs with hcur hel
      · simp [hcur]
      · simp [hcur, hel]
      · simp [hcur, hel]
    | some v =>
      dsimp only
      split_ifs with hcur hv hel
      · simp [hcur]
      · simp [hcur, hv.not_le]
      · simp [hcur, not_lt.mp hv, hel]
      · simp [hcur, hel, not_lt.mp hv]

/-! ## C9 — wave analysis -/

/-- A left fold of `max` dominates its seed and every element folded over. -/
theorem foldlMax_bounds (xs : List ℚ) (acc : ℚ) :
    acc ≤ xs.foldl max acc ∧ ∀ y ∈ xs, y ≤ xs.foldl max acc := by
  induction xs generalizing acc with
  | nil => exact ⟨le_refl _, by simp⟩
  | cons z zs ih =>
    obtain ⟨h1, h2⟩ := ih (max acc z)
    refine ⟨le_trans (le_max_left _ _) h1, ?_⟩
    intro y hy
    rcases List.mem_cons.mp hy with rfl | hy
    · exact le_trans (le_max_right _ _) h1
    · exact h2 y hy

/-- A left fold of `min` is below its seed and every element folded over. -/
theorem foldlMin_bounds (xs : List ℚ) (acc : ℚ) :
    xs.foldl min acc ≤ acc ∧ ∀ y ∈ xs, xs.foldl min acc ≤ y := by
  induction xs generalizing acc with
  | nil => exact ⟨le_refl _, by simp⟩
  | cons z zs ih =>
    obtain ⟨h1, h2⟩ := ih (min acc z)
    refine ⟨le_trans h1 (min_le_left _ _), ?_⟩
    intro y hy
    rcases List.mem_cons.mp hy with rfl | hy
    · exact le_trans h1 (min_le_right _ _)
    · exact h2 y hy

/-- `Math.max` of a list dominates every member. -/
theorem jsMaxList_ge {l : List ℚ} {y : ℚ} (hy : y ∈ l) : y ≤ jsMaxList l := by
  cases l with
  | nil => cases hy
  | cons x xs =>
    unfold jsMaxList
    rcases List.mem_cons.mp hy with rfl | hy
    · exact (foldlMax_bounds xs y).1
    · exact (foldlMax_bounds xs x).2 y hy

/-- `Math.min` of a list is below every member. -/
theorem jsMinList_le {l : List ℚ} {y : ℚ} (hy : y ∈ l) : jsMinList l ≤ y := by
  cases l with
  | nil => cases hy
  | cons x xs =>
    unfold jsMinList
    rcases List.mem_cons.mp hy with rfl | hy
    · exact (foldlMin_bounds xs y).1
    · exact (foldlMin_bounds xs x).2 y hy

/-- C9.  On a non-empty series the wave analysis is non-null, its extremes are
ordered, `currentPosition` follows the range formula when high > low, is
exactly 50 when high = low, and always lies in [0, 100]. -/
theorem getWaveAnalysis_spec (snapshots : List DailySnapshot) (h : snapshots ≠ []) :
    ∃ w, getWaveAnalysis snapshots = some w ∧
      w.allTimeLow ≤ w.allTimeHigh ∧
      (w.allTimeHigh = w.allTimeLow → w.currentPosition = 50) ∧
      (w.allTimeLow < w.allTimeHigh →
        w.currentPosition
          = (w.current - w.allTimeLow) / (w.allTimeHigh - w.allTimeLow) * 100) ∧
      0 ≤ w.currentPosition ∧ w.currentPosition ≤ 100 := by
  have hlast : snapshots.getLast? = some (snapshots.getLast h) :=
    List.getLast?_eq_getLast _ h
  have hmem : (snapshots.getLast h).netWorth ∈ snapshots.map (fun s => s.netWorth) :=
    List.mem_map_of_mem _ (List.getLast_mem h)
  have hlow : jsMinList (snapshots.map fun s => s.netWorth)
      ≤ (snapshots.getLast h).netWorth := jsMinList_le hmem
  have hhigh : (snapshots.getLast h).netWorth
      ≤ jsMaxList (snapshots.map fun s => s.netWorth) := jsMaxList_ge hmem
  unfold getWaveAnalysis
  rw [if_neg (by simpa using h)]
  refine ⟨_, rfl, ?_, ?_, ?_, ?_, ?_⟩ <;> dsimp only
  · exact hlow.trans hhigh
  · intro heq
    rw [if_neg (by rw [heq]; simp)]
  · intro hlt
    rw [if_pos (sub_pos.mpr hlt)]
  · rw [hlast]
    dsimp only [Option.map_some', Option.getD_some]
    split_ifs with hr
    · have h1 : 0 ≤ (snapshots.getLast h).netWorth -
          jsMinList (snapshots.map fun s => s.netWorth) := sub_nonneg.mpr hlow
      positivity
    · norm_num
  · rw [hlast]
    dsimp only [Option.map_some', Option.getD_some]
    split_ifs with hr
    · have h1 : (snapshots.getLast h).netWorth -
          jsMinList (snapshots.map fun s => s.netWorth)
            ≤ jsMaxList (snapshots.map fun s => s.netWorth) -
              jsMinList (snapshots.map fun s => s.netWorth) :=
        sub_le_sub_right hhigh _
      have h2 : ((snapshots.getLast h).netWorth -
          jsMinList (snapshots.map fun s => s.netWorth)) /
            (jsMaxList (snapshots.map fun s => s.netWorth) -
              jsMinList (snapshots.map fun s => s.netWorth)) ≤ 1 :=
        (div_le_one hr).mpr h1
      nlinarith
    · norm_num

/-- C9 witness: the wave-analysis statement at a one-element series. -/
theorem getWaveAnalysis_spec_witness :
    ∃ w, getWaveAnalysis [⟨['x'], 5⟩] = some w ∧
      w.allTimeLow ≤ w.allTimeHigh ∧
      (w.allTimeHigh = w.allTimeLow → w.currentPosition = 50) ∧
      (w.allTimeLow < w.allTimeHigh →
        w.currentPosition
          = (w.current - w.allTimeLow) / (w.allTimeHigh - w.allTimeLow) * 100) ∧
      0 ≤ w.currentPosition ∧ w.currentPosition ≤ 100 :=
  getWaveAnalysis_spec [⟨['x'], 5⟩] (by simp)

/-! ## C2 — snapshot retention: string-level lemmas -/

/-- `startsWithL p s` holds exactly when `s` extends `p`. -/
theorem startsWithL_iff (p s : List Char) :
    startsWithL p s = true ↔ ∃ r, s = p ++ r := by
  induction p generalizing s with
  | nil => simp [startsWithL]
  | cons a ps ih =>
    cases s with
    | nil =>
      simp only [startsWithL, Bool.false_eq_true, false_iff]
      rintro ⟨r, hr⟩
      cases hr
    | cons b ss =>
      simp only [startsWithL, Bool.and_eq_true, beq_iff_eq, ih]
      constructor
      · rintro ⟨rfl, r, rfl⟩
        exact ⟨r, rfl⟩
      · rintro ⟨r, hr⟩
        obtain ⟨rfl, rfl⟩ := List.cons.injEq .. ▸ hr
        exact ⟨rfl, r, rfl⟩

/-- Splitting a separator-free list yields that list alone. -/
theorem splitOnChar_of_not_mem {c : Char} {xs : List Char} (h : c ∉ xs) :
    splitOnChar c xs = [xs] := by
  induction xs with
  | nil => rfl
  | cons a rest ih =>
    have ha : a ≠ c := fun hac => h (hac ▸ List.mem_cons_self a rest)
    have hr : c ∉ rest := fun hc => h (List.mem_cons_of_mem a hc)
    rw [splitOnChar, if_neg ha, ih hr]

/-- Splitting peels off a separator-free head component. -/
theorem splitOnChar_append {c : Char} {xs : List Char} (h : c ∉ xs) (ys : List Char) :
    splitOnChar c (xs ++ c :: ys) = xs :: splitOnChar c ys := by
  induction xs with
  | nil =>
    show splitOnChar c (c :: ys) = [] :: splitOnChar c ys
    rw [splitOnChar, if_pos rfl]
  | cons a rest ih =>
    have ha : a ≠ c := fun hac => h (hac ▸ List.mem_cons_self a rest)
    have hr : c ∉ rest := fun hc => h (List.mem_cons_of_mem a hc)
    show splitOnChar c (a :: (rest ++ c :: ys)) = (a :: rest) :: splitOnChar c ys
    rw [splitOnChar, if_neg ha, ih hr]

/-- A well-formed date is ten characters long. -/
theorem WfDate.length_eq {d : List Char} (h : WfDate d) : d.length = 10 := by
  obtain ⟨a, b, c, rfl, ha, hb, hc, -, -, -⟩ := h
  simp [ha, hb, hc]

/-- Extracting the date of a bare-date identifier returns it unchanged. -/
theorem dateOf_bare {d : List Char} (h : WfDate d) : dateOf d = d := by
  obtain ⟨a, b, c, rfl, -, -, -, hna, hnb, hnc⟩ := h
  unfold dateOf
  rw [splitOnChar_append hna, splitOnChar_append hnb, splitOnChar_of_not_mem hnc]
  rfl

/-- Extracting the date of a date-dash-time identifier returns the date. -/
theorem dateOf_timed {d t : List Char} (hd : WfDate d) (ht : WfTime t) :
    dateOf (d ++ '-' :: t) = d := by
  obtain ⟨a, b, c, rfl, -, -, -, hna, hnb, hnc⟩ := hd
  obtain ⟨-, hnt⟩ := ht
  unfold dateOf
  have hshape : (a ++ '-' :: (b ++ '-' :: c)) ++ '-' :: t
      = a ++ '-' :: (b ++ '-' :: (c ++ '-' :: t)) := by simp
  rw [hshape, splitOnChar_append hna, splitOnChar_append hnb, splitOnChar_append hnc,
    splitOnChar_of_not_mem hnt]
  rfl

/-- The date extracted from a well-formed identifier is a well-formed date,
and the identifier is the date or the date followed by a dash and a time. -/
theorem dateOf_wfId {s : List Char} (h : WfId s) :
    WfDate (dateOf s) ∧ (s = dateOf s ∨ ∃ t, WfTime t ∧ s = dateOf s ++ '-' :: t) := by
  rcases h with ⟨d, hd, rfl⟩ | ⟨d, t, hd, ht, rfl⟩
  · rw [dateOf_bare hd]
    exact ⟨hd, Or.inl rfl⟩
  · rw [dateOf_timed hd ht]
    exact ⟨hd, Or.inr ⟨t, ht, rfl⟩⟩

/-- For a well-formed date and a well-formed identifier, the identifier starts
with the date exactly when that date is its calendar date. -/
theorem startsWithL_iff_dateOf {d s : List Char} (hd : WfDate d) (hs : WfId s) :
    startsWithL d s = true ↔ dateOf s = d := by
  rw [startsWithL_iff]
  constructor
  · rintro ⟨r, rfl⟩
    rcases hs with ⟨d0, hd0, he⟩ | ⟨d0, t, hd0, ht, he⟩
    · have hlen : (d ++ r).length = 10 := by rw [he, WfDate.length_eq hd0]
      rw [List.length_append, WfDate.length_eq hd] at hlen
      have hr : r = [] := List.length_eq_zero.mp (by omega)
      subst hr
      rw [List.append_nil] at he ⊢
      rw [he]
      exact dateOf_bare hd0
    · have hlen : d.length = d0.length := by
        rw [WfDate.length_eq hd0, WfDate.length_eq hd]
      obtain ⟨rfl, rfl⟩ := List.append_inj he hlen
      exact dateOf_timed hd0 ht
  · intro h
    obtain ⟨-, hcase⟩ := dateOf_wfId hs
    rcases hcase with he | ⟨t, -, he⟩
    · exact ⟨[], by rw [he, h, List.append_nil]⟩
    · exact ⟨'-' :: t, by rw [he, h]⟩

/-! ## C2 — count lemmas -/

/-- `cntD` as a `countP`. -/
theorem cntD_eq_countP (d : List Char) (l : List DailySnapshot) :
    cntD d l = l.countP fun s => decide (dateOf s.id = d) := by
  rw [cntD, List.countP_eq_length_filter]

/-- Permutations preserve per-date counts. -/
theorem cntD_perm {l l' : List DailySnapshot} (h : l.Perm l') (d : List Char) :
    cntD d l = cntD d l' := by
  rw [cntD_eq_countP, cntD_eq_countP]
  exact h.countP_eq _

/-- Filtering never increases a per-date count. -/
theorem cntD_filter_le (d : List Char) (p : DailySnapshot → Bool)
    (l : List DailySnapshot) : cntD d (l.filter p) ≤ cntD d l :=
  List.Sublist.length_le (List.Sublist.filter _ (List.filter_sublist l))

/-- Per-date counts add across concatenation. -/
theorem cntD_append (d : List Char) (l₁ l₂ : List DailySnapshot) :
    cntD d (l₁ ++ l₂) = cntD d l₁ + cntD d l₂ := by
  unfold cntD
  rw [List.filter_append, List.length_append]

/-- A positive per-date count exhibits a snapshot of that date. -/
theorem cntD_pos_iff {d : List Char} {l : List DailySnapshot} :
    0 < cntD d l ↔ ∃ s ∈ l, dateOf s.id = d := by
  rw [cntD_eq_countP, List.countP_pos_iff]
  simp

/-- A date-preserving map preserves per-date counts. -/
theorem cntD_map (d : List Char) (f : DailySnapshot → DailySnapshot)
    (l : List DailySnapshot) (hf : ∀ t, dateOf (f t).id = dateOf t.id) :
    cntD d (l.map f) = cntD d l := by
  unfold cntD
  rw [List.filter_map, List.length_map]
  congr 1
  apply List.filter_congr
  intro t ht
  simp [Function.comp_apply, hf t]

/-- The chain of per-identifier deletions of `cleanupStep` collapses to a
single filter. -/
theorem foldl_delete_eq_filter (del : List DailySnapshot) (l : List DailySnapshot) :
    del.foldl (fun acc s => acc.filter fun t => decide (t.id ≠ s.id)) l
      = l.filter fun t => decide (t.id ∉ del.map fun s => s.id) := by
  induction del generalizing l with
  | nil =>
    rw [List.foldl_nil]
    symm
    rw [List.filter_eq_self]
    simp
  | cons s del ih =>
    rw [List.foldl_cons, ih, List.filter_filter]
    apply List.filter_congr
    intro t ht
    by_cases h1 : t.id = s.id <;>
      by_cases h2 : t.id ∈ del.map (fun s => s.id) <;> simp [h1, h2]

/-- One pass of the compaction loop: identifiers stay well formed, no per-date
count grows, and the processed date ends with at most one snapshot. -/
theorem cleanupStep_spec (snaps : List DailySnapshot) (date : List Char)
    (hw : WfSnaps snaps) (hd : WfDate date) :
    WfSnaps (cleanupStep snaps date) ∧
    (∀ d, cntD d (cleanupStep snaps date) ≤ cntD d snaps) ∧
    cntD date (cleanupStep snaps date) ≤ 1 := by
  have hfilter : snaps.filter (fun s => startsWithL date s.id)
      = snaps.filter fun s => decide (dateOf s.id = date) :=
    List.filter_congr fun s hs => by
      rw [Bool.eq_iff_iff]
      simp only [decide_eq_true_eq]
      exact startsWithL_iff_dateOf hd (hw s hs)
  have hcnt_day : cntD date snaps
      = (snaps.filter fun s => startsWithL date s.id).length := by
    rw [cntD, hfilter]
  unfold cleanupStep
  dsimp only
  split_ifs with hlen
  · cases hlast : (snaps.filter fun s => startsWithL date s.id).getLast? with
    | none =>
      rw [List.getLast?_eq_none_iff] at hlast
      rw [hlast] at hlen
      simp at hlen
    | some toKeep =>
      have hkeep_mem : toKeep ∈ snaps.filter fun s => startsWithL date s.id :=
        List.mem_of_getLast?_eq_some hlast
      have hkeep_date : dateOf toKeep.id = date := by
        have h1 := List.mem_filter.mp hkeep_mem
        exact (startsWithL_iff_dateOf hd (hw _ h1.1)).mp h1.2
      have hrn : ∀ t : DailySnapshot,
          dateOf (if t.id = toKeep.id then ({ t with id := date } : DailySnapshot)
            else t).id = dateOf t.id := by
        intro t
        split_ifs with h
        · dsimp only
          rw [dateOf_bare hd, h, hkeep_date]
        · rfl
      rw [foldl_delete_eq_filter]
      refine ⟨?_, ?_, ?_⟩
      · intro t ht
        obtain ⟨u, hu, rfl⟩ := List.mem_map.mp ht
        have hu2 : u ∈ snaps := List.mem_of_mem_filter hu
        split_ifs with h
        · exact Or.inl ⟨date, hd, rfl⟩
        · exact hw u hu2
      · intro d
        rw [cntD_map d _ _ hrn]
        exact cntD_filter_le d _ snaps
      · rw [cntD_map date _ _ hrn]
        unfold cntD
        rw [List.filter_comm, ← hfilter]
        have hday := List.dropLast_append_getLast? toKeep hlast
        generalize hdl : (snaps.filter fun s => startsWithL date s.id).dropLast
          = dl at hday ⊢
        rw [← hday, List.filter_append, List.length_append]
        have h0 : (dl.filter fun t =>
            decide (t.id ∉ dl.map fun s => s.id)).length = 0 := by
          rw [List.length_eq_zero, List.filter_eq_nil_iff]
          intro t ht
          simp only [decide_eq_true_eq, not_not]
          exact List.mem_map_of_mem _ ht
        have h1 : (([toKeep]).filter fun t =>
            decide (t.id ∉ dl.map fun s => s.id)).length ≤ 1 :=
          le_trans (List.length_filter_le _ _) (by simp)
        omega
  · exact ⟨hw, fun d => le_refl _, by rw [hcnt_day]; omega⟩

/-- The head of a list is a member. -/
theorem mem_of_head?_eq_some {α : Type} {l : List α} {a : α}
    (h : l.head? = some a) : a ∈ l := by
  cases l with
  | nil => simp at h
  | cons x xs =>
    rw [List.head?_cons, Option.some.injEq] at h
    exact h ▸ List.mem_cons_self x xs

/-- Filtering out a present element strictly shrinks the list. -/
theorem length_filter_lt_of_mem {α : Type} {l : List α} {x : α} {p : α → Bool}
    (hx : x ∈ l) (hpx : p x = false) : (l.filter p).length < l.length := by
  induction l with
  | nil => cases hx
  | cons a as ih =>
    rw [List.filter_cons]
    rcases List.mem_cons.mp hx with rfl | hx
    · rw [hpx]
      have := List.length_filter_le p as
      simp
      omega
    · cases hpa : p a
      · have := ih hx
        simp
        omega
      · have := ih hx
        simp
        omega

/-- Folding the compaction step over a list of well-formed dates keeps the
identifiers well formed, never increases a per-date count, and leaves every
processed date with at most one snapshot. -/
theorem cleanup_fold_spec (dates : List (List Char)) (snaps : List DailySnapshot)
    (hw : WfSnaps snaps) (hd : ∀ d ∈ dates, WfDate d) :
    WfSnaps (dates.foldl cleanupStep snaps) ∧
    (∀ d, cntD d (dates.foldl cleanupStep snaps) ≤ cntD d snaps) ∧
    (∀ d ∈ dates, cntD d (dates.foldl cleanupStep snaps) ≤ 1) := by
  induction dates generalizing snaps with
  | nil => exact ⟨hw, fun d => le_refl _, by simp⟩
  | cons date rest ih =>
    have hdate : WfDate date := hd date (List.mem_cons_self _ _)
    obtain ⟨hw1, hle1, h1⟩ := cleanupStep_spec snaps date hw hdate
    obtain ⟨hw2, hle2, h2⟩ := ih (cleanupStep snaps date) hw1
      fun d hdm => hd d (List.mem_cons_of_mem _ hdm)
    rw [List.foldl_cons]
    refine ⟨hw2, fun d => le_trans (hle2 d) (hle1 d), ?_⟩
    intro d hdm
    rcases List.mem_cons.mp hdm with rfl | hdm
    · exact le_trans (hle2 d) h1
    · exact h2 d hdm

/-- After the compaction pass: identifiers well formed, counts non-increasing,
and every date other than today has at most one snapshot. -/
theorem cleanupOldSnapshots_spec (history : List DailySnapshot) (today : List Char)
    (hw : WfSnaps history) :
    WfSnaps (cleanupOldSnapshots history today) ∧
    (∀ d, cntD d (cleanupOldSnapshots history today) ≤ cntD d history) ∧
    (∀ d, d ≠ today → cntD d (cleanupOldSnapshots history today) ≤ 1) := by
  unfold cleanupOldSnapshots
  have hdates : ∀ d ∈ pastDatesOf history today, WfDate d := by
    intro d hdm
    unfold pastDatesOf at hdm
    rw [List.mem_dedup] at hdm
    obtain ⟨hmem, -⟩ := List.mem_filter.mp hdm
    obtain ⟨s, hs, rfl⟩ := List.mem_map.mp hmem
    exact (dateOf_wfId (hw s hs)).1
  obtain ⟨h1, h2, h3⟩ := cleanup_fold_spec (pastDatesOf history today) history hw hdates
  refine ⟨h1, h2, ?_⟩
  intro d hne
  by_cases hc : 0 < cntD d history
  · obtain ⟨s, hs, hds⟩ := cntD_pos_iff.mp hc
    have hdm : d ∈ pastDatesOf history today := by
      unfold pastDatesOf
      rw [List.mem_dedup, List.mem_filter]
      exact ⟨List.mem_map.mpr ⟨s, hs, hds⟩, by simp [hne]⟩
    exact h3 d hdm
  · have := h2 d
    omega

/-- `lexLe` is total. -/
theorem lexLe_total (a b : List Char) : lexLe a b = true ∨ lexLe b a = true := by
  induction a generalizing b with
  | nil => left; rfl
  | cons x xs ih =>
    cases b with
    | nil => right; rfl
    | cons y ys =>
      by_cases h1 : x < y
      · left; rw [lexLe, if_pos h1]
      · by_cases h2 : y < x
        · right; rw [lexLe, if_pos h2]
        · rcases ih ys with h | h
          · left; rw [lexLe, if_neg h1, if_neg h2]; exact h
          · right; rw [lexLe, if_neg h2, if_neg h1]; exact h

/-- `lexLe` is transitive. -/
theorem lexLe_trans {a b c : List Char} (hab : lexLe a b = true)
    (hbc : lexLe b c = true) : lexLe a c = true := by
  induction a generalizing b c with
  | nil => rfl
  | cons x xs ih =>
    cases b with
    | nil => rw [lexLe] at hab; exact absurd hab (by simp)
    | cons y ys =>
      cases c with
      | nil => rw [lexLe] at hbc; exact absurd hbc (by simp)
      | cons z zs =>
        rw [lexLe] at hab hbc ⊢
        by_cases hxy : x < y
        · by_cases hyz : y < z
          · rw [if_pos (lt_trans hxy hyz)]
          · by_cases hzy : z < y
            · rw [if_neg hyz, if_pos hzy] at hbc
              exact absurd hbc (by simp)
            · have heq : y = z := le_antisymm (not_lt.mp hzy) (not_lt.mp hyz)
              rw [if_pos (heq ▸ hxy)]
        · by_cases hyx : y < x
          · rw [if_neg hxy, if_pos hyx] at hab
            exact absurd hab (by simp)
          · have hxy_eq : x = y := le_antisymm (not_lt.mp hyx) (not_lt.mp hxy)
            rw [if_neg hxy, if_neg hyx] at hab
            by_cases hyz : y < z
            · have hxz : x < z := by rw [hxy_eq]; exact hyz
              rw [if_pos hxz]
            · by_cases hzy : z < y
              · rw [if_neg hyz, if_pos hzy] at hbc
                exact absurd hbc (by simp)
              · have hyz_eq : y = z := le_antisymm (not_lt.mp hzy) (not_lt.mp hyz)
                have h1 : ¬x < z := by rw [hxy_eq, hyz_eq]; exact lt_irrefl z
                have h2 : ¬z < x := by rw [hxy_eq, hyz_eq]; exact lt_irrefl z
                rw [if_neg h1, if_neg h2]
                rw [if_neg hyz, if_neg hzy] at hbc
                exact ih hab hbc

/-- `sortById` permutes its input. -/
theorem sortById_perm (l : List DailySnapshot) : (sortById l).Perm l :=
  List.mergeSort_perm l _

/-- `sortById` sorts ascending by identifier. -/
theorem sortById_sorted (l : List DailySnapshot) : SortedByIds (sortById l) := by
  unfold SortedByIds sortById
  exact @List.sorted_mergeSort DailySnapshot (fun a b => lexLe a.id b.id)
    (fun a b c hab hbc => lexLe_trans hab hbc)
    (fun a b => by
      rcases lexLe_total a.id b.id with h | h <;> simp [h])
    l

/-- One call to `saveSnapshot` establishes the full retention invariant,
provided the incoming identifiers are well formed and today holds at most
five snapshots (both guaranteed by conformance). -/
theorem saveSnapshot_post (history : List DailySnapshot) (today timeStr : List Char)
    (n : ℚ) (hw : WfSnaps history) (h5 : cntD today history ≤ 5)
    (hd : WfDate today) (ht : WfTime timeStr) :
    Conformant today (saveSnapshot history today timeStr n) := by
  obtain ⟨hw1, hle1, hpast⟩ := cleanupOldSnapshots_spec history today hw
  have h5R : cntD today (cleanupOldSnapshots history today) ≤ 5 :=
    le_trans (hle1 today) h5
  have hnew_date : dateOf (today ++ '-' :: timeStr) = today := dateOf_timed hd ht
  have hnew_wf : WfId (today ++ '-' :: timeStr) :=
    Or.inr ⟨today, timeStr, hd, ht, rfl⟩
  have hfilter : (cleanupOldSnapshots history today).filter
      (fun s => startsWithL today s.id)
        = (cleanupOldSnapshots history today).filter
          fun s => decide (dateOf s.id = today) :=
    List.filter_congr fun s hs => by
      rw [Bool.eq_iff_iff]
      simp only [decide_eq_true_eq]
      exact startsWithL_iff_dateOf hd (hw1 s hs)
  have heqR : cntD today (cleanupOldSnapshots history today)
      = ((cleanupOldSnapshots history today).filter
          fun s => startsWithL today s.id).length := by
    unfold cntD
    rw [hfilter]
  have key : ∀ s2 : List DailySnapshot,
      WfSnaps s2 → (∀ d, d ≠ today → cntD d s2 ≤ 1) → cntD today s2 ≤ 4 →
      Conformant today (sortById (s2 ++ [⟨today ++ '-' :: timeStr, n⟩])) := by
    intro s2 hwf2 hpast2 h42
    have hperm := sortById_perm (s2 ++ [⟨today ++ '-' :: timeStr, n⟩])
    refine ⟨?_, ?_, ?_, sortById_sorted _⟩
    · intro s hs
      rcases List.mem_append.mp (hperm.mem_iff.mp hs) with h | h
      · exact hwf2 s h
      · rw [List.mem_singleton] at h
        subst h
        exact hnew_wf
    · intro d hne
      rw [cntD_perm hperm d, cntD_append]
      have hone : cntD d [⟨today ++ '-' :: timeStr, n⟩] = 0 := by
        simp [cntD, hnew_date]
        exact fun h => hne h.symm
      have := hpast2 d hne
      omega
    · rw [cntD_perm hperm today, cntD_append]
      have hone : cntD today [⟨today ++ '-' :: timeStr, n⟩] = 1 := by
        simp [cntD, hnew_date]
      omega
  unfold saveSnapshot
  dsimp only
  by_cases hlen : 5 ≤ ((cleanupOldSnapshots history today).filter
      fun s => startsWithL today s.id).length
  · rw [if_pos hlen]
    cases hhead : ((cleanupOldSnapshots history today).filter
        fun s => startsWithL today s.id).head? with
    | none =>
      rw [List.head?_eq_none_iff] at hhead
      rw [hhead] at hlen
      simp at hlen
    | some oldest =>
      dsimp only
      apply key
      · exact fun s hs => hw1 s (List.mem_of_mem_filter hs)
      · exact fun d hne => le_trans (cntD_filter_le d _ _) (hpast d hne)
      · have hmem : oldest ∈ (cleanupOldSnapshots history today).filter
            fun s => decide (dateOf s.id = today) :=
          hfilter ▸ mem_of_head?_eq_some hhead
        have hlt : cntD today ((cleanupOldSnapshots history today).filter
            fun s => decide (s.id ≠ oldest.id))
              < cntD today (cleanupOldSnapshots history today) := by
          unfold cntD
          rw [List.filter_comm]
          exact length_filter_lt_of_mem hmem (by simp)
        omega
  · rw [if_neg hlen]
    apply key
    · exact hw1
    · exact hpast
    · omega

/-- C2.  Starting from an empty or conformant history, after any non-empty
sequence of captures the snapshot series satisfies the retention invariant
relative to the last capture's date: every other date carries at most one
snapshot (hence exactly one where any remains), that date carries at most
five, and the series is sorted ascending by identifier. -/
theorem saveSnapshot_retention (captures : List Capture) (init : List DailySnapshot)
    (d0 : List Char) (hconf : Conformant d0 init)
    (hwfc : ∀ c ∈ captures, WfDate c.today ∧ WfTime c.timeStr)
    (hne : captures ≠ []) :
    Conformant (lastTodayOf captures) (runCaptures init captures) := by
  induction captures generalizing init d0 with
  | nil => exact absurd rfl hne
  | cons c rest ih =>
    obtain ⟨hw0, hpast0, htoday0, -⟩ := hconf
    have hc := hwfc c (List.mem_cons_self _ _)
    have h5 : cntD c.today init ≤ 5 := by
      by_cases he : c.today = d0
      · rw [he]; exact htoday0
      · exact le_trans (hpast0 c.today he) (by omega)
    have hpost := saveSnapshot_post init c.today c.timeStr c.netWorth hw0 h5 hc.1 hc.2
    cases rest with
    | nil =>
      unfold runCaptures lastTodayOf
      simp only [List.foldl_cons, List.foldl_nil]
      have hlast : ([c].getLast?) = some c := by simp
      rw [hlast]
      simpa using hpost
    | cons c2 rest2 =>
      have hrun : runCaptures init (c :: c2 :: rest2)
          = runCaptures (saveSnapshot init c.today c.timeStr c.netWorth)
            (c2 :: rest2) := rfl
      have hlast : lastTodayOf (c :: c2 :: rest2) = lastTodayOf (c2 :: rest2) := by
        unfold lastTodayOf
        rw [List.getLast?_cons_cons]
      rw [hrun, hlast]
      exact ih _ _ hpost (fun x hx => hwfc x (List.mem_cons_of_mem _ hx)) (by simp)

/-- C2 witness: one capture on 2025-01-02 at 18:00:00 from the empty history. -/
theorem saveSnapshot_retention_witness :
    Conformant
      (lastTodayOf [⟨['2', '0', '2', '5', '-', '0', '1', '-', '0', '2'],
        ['1', '8', ':', '0', '0', ':', '0', '0'], 100⟩])
      (runCaptures []
        [⟨['2', '0', '2', '5', '-', '0', '1', '-', '0', '2'],
          ['1', '8', ':', '0', '0', ':', '0', '0'], 100⟩]) :=
  saveSnapshot_retention _ [] []
    ⟨fun s hs => absurd hs (List.not_mem_nil s),
     fun d _ => by simp [cntD],
     by simp [cntD],
     List.Pairwise.nil⟩
    (by
      intro c hc
      rw [List.mem_singleton] at hc
      subst hc
      exact ⟨⟨['2', '0', '2', '5'], ['0', '1'], ['0', '2'], rfl, rfl, rfl, rfl,
        by decide, by decide, by decide⟩, by decide, by decide⟩)
    (by simp)

end TianJi
